import Mathlib

/-!
Shallow embedding of `src/klvdata/common.py` (klvdata codec primitives) and
verification of the spec claims about it.

Modelling conventions:
* Python `bytes` objects become `List Nat` with every element `< 256`.
* Python unbounded `int` becomes `Nat`/`Int`; exact rational arithmetic `ℚ`
  stands in for Python arithmetic in the linear-scaling codec.
* A Python function that can raise becomes an `Option`-valued function,
  `none` marking the raise (`ValueError`, `OverflowError`, `struct.error`,
  `ZeroDivisionError`, ...).
-/

namespace Klvdata

/-! ### Definitions (translated from `src/klvdata/common.py`) -/

/-- `int.from_bytes(value, byteorder='big', signed=False)` — the code's
`bytes_to_int` with the default unsigned interpretation (the only one the
claims use). -/
def bytes_to_int (l : List Nat) : Nat :=
  l.foldl (fun acc b => acc * 256 + b) 0

/-- Big-endian serialization of a natural number into exactly `len` bytes,
most significant byte first (truncating above `256^len`). -/
def natToBytesBE : Nat → Nat → List Nat
  | 0, _ => []
  | n + 1, v => (v / 256 ^ n) % 256 :: natToBytesBE n (v % 256 ^ n)

/-- Whether `int(value).to_bytes(length, byteorder='big', signed=signed)`
succeeds: Python raises `OverflowError` when the value does not fit the
requested width under the requested signedness. -/
def toBytesFits (v : Int) (len : Nat) (signed : Bool) : Prop :=
  if signed then
    if len = 0 then v = 0
    else -(2 ^ (8 * len - 1) : Int) ≤ v ∧ v < (2 ^ (8 * len - 1) : Int)
  else 0 ≤ v ∧ v < (2 ^ (8 * len) : Int)

instance (v : Int) (len : Nat) (signed : Bool) :
    Decidable (toBytesFits v len signed) := by
  unfold toBytesFits
  split
  · split
    · exact inferInstance
    · exact inferInstance
  · exact inferInstance

/-- `int(value).to_bytes(length, byteorder='big', signed=signed)` — the
code's `int_to_bytes`.  `none` is Python's `OverflowError`.  In the in-range
case the emitted bytes are the big-endian digits of `v mod 2^(8*len)`
(two's complement representation when `signed` and `v < 0`). -/
def int_to_bytes (v : Int) (len : Nat) (signed : Bool) : Option (List Nat) :=
  if toBytesFits v len signed then
    some (natToBytesBE len (v % (2 ^ (8 * len) : Int)).toNat)
  else
    none

/-- Helper for `bit_length`: structural recursion on a fuel bound (so that
it evaluates by kernel reduction), counting binary digits. -/
def bitLenAux : Nat → Nat → Nat
  | 0, _ => 0
  | fuel + 1, n => if n = 0 then 0 else bitLenAux fuel (n / 2) + 1

/-- Python `int.bit_length` for non-negative values: `0` for `0`, else
`⌊log₂ n⌋ + 1`. -/
def bit_length (n : Nat) : Nat := bitLenAux n n

/-- `ber_decode` from the source.  `none` is the raised `ValueError`.
The long-form branch compares `len(value)` with `value[0] - 127`; Python's
subtraction is over `int`, but when `value[0] ≤ 127` the Python result is
`≤ 0` while the length in that branch is `≥ 1`, so truncated `Nat`
subtraction gives the same comparison outcome. -/
def ber_decode (l : List Nat) : Option Nat :=
  if bytes_to_int l < 128 then
    if l.length > 1 then none
    else some (bytes_to_int l)
  else
    match l with
    | [] => none
    | b :: rest => if l.length = b - 127 then some (bytes_to_int rest) else none

/-- `ber_encode` from the source: short form below 128, otherwise a marker
byte `128 + byte_length` followed by the value big-endian in `byte_length`
bytes, where the local `byte_length = ((bit_length v - 1) // 8) + 1` is
inlined here.  Either `int_to_bytes` call can raise (`OverflowError`),
hence the `Option.bind`. -/
def ber_encode (v : Nat) : Option (List Nat) :=
  if v < 128 then
    int_to_bytes (v : Int) 1 false
  else
    (int_to_bytes ((((bit_length v - 1) / 8 + 1 : Nat) : Int) + 128) 1 false).bind
      fun marker =>
        (int_to_bytes (v : Int) ((bit_length v - 1) / 8 + 1) false).map
          fun payload => marker ++ payload

/-- Result of `linear_map`: the `None` return for an out-of-domain source
value, the `ZeroDivisionError` raised at the `slope` division when the
domain is degenerate, or a value. -/
inductive LMResult where
  | outOfDomain : LMResult
  | zeroDiv : LMResult
  | ok : ℚ → LMResult
  deriving DecidableEq

/-- `linear_map` from the source, over exact rational arithmetic.  The
out-of-domain test comes first, exactly as in the code; `zeroDiv` is made
explicit before the division because rational division cannot raise, and it
fires exactly where Python raises `ZeroDivisionError` when
`src_max - src_min == 0`.  Exact rationals stand in for the source's
IEEE-754 doubles, so only properties that are also exact in binary64 —
the comparison-driven control flow, the degenerate-domain test
(`x - x == 0.0` exactly for finite floats), and results reached through
exact operations only — are settled against this definition; value-level
identities that hinge on float rounding (e.g. that the slope division and
multiplication cancel at `src_max`) are not, since in the program
`(1/49)*49 == 0.9999999999999999 != 1.0`. -/
def linear_map (src_value : ℚ) (src_domain dst_range : ℚ × ℚ) : LMResult :=
  if src_value < src_domain.1 ∨ src_value > src_domain.2 then .outOfDomain
  else if src_domain.2 - src_domain.1 = 0 then .zeroDiv
  else .ok ((dst_range.2 - dst_range.1) / (src_domain.2 - src_domain.1)
    * (src_value - src_domain.1) + dst_range.1)

/-- Python `round` on an exact rational: nearest integer, ties to even. -/
def pyRound (q : ℚ) : Int :=
  let f : Int := Int.fdiv q.num (q.den : Int)
  let frac : ℚ := q - (f : ℚ)
  if frac < 1 / 2 then f
  else if 1 / 2 < frac then f + 1
  else if f % 2 = 0 then f else f + 1

/-- `float_to_bytes` from the source, Python float arithmetic modelled
exactly over `ℚ`.  The source swaps the arguments into the map
(`src_domain, dst_range = _range, _domain`), derives the byte width from
`dst_max.bit_length()` (Python's `bit_length` of a negative int is that of
its absolute value, hence `natAbs`), and signs the serialization by
`dst_min < 0`.  `none` models the exceptions Python can raise there
(`ZeroDivisionError` inside `linear_map`, `TypeError` from `round(None)`
when the map returns no result, `OverflowError` from `to_bytes`). -/
def float_to_bytes (value : ℚ) (dom : Int × Int) (rng : ℚ × ℚ) :
    Option (List Nat) :=
  match linear_map value rng ((dom.1 : ℚ), (dom.2 : ℚ)) with
  | .ok d =>
      int_to_bytes (pyRound d) ((bit_length dom.2.natAbs + 7) / 8)
        (decide (dom.1 < 0))
  | _ => none

/-- The big-endian 16-bit words of `unpack('>nH', ...)`: consecutive byte
pairs, high byte first; a trailing unpaired byte yields no word. -/
def words16 : List Nat → List Nat
  | b0 :: b1 :: rest => (b0 * 256 + b1) :: words16 rest
  | _ => []

/-- `packet_checksum` from the source.  For `len(data) < 2` the negative
`length` makes Python's `struct` raise (`none`); otherwise
`length = len(data) - 2`, `mod = length % 2`, the words are unpacked from
`data[0:length - mod]` and summed, an odd trailing byte `data[length - 1]`
is added shifted into the high byte (`<< 8`), and the result is
`pack('>H', words & 0xFFFF)`. -/
def packet_checksum (data : List Nat) : Option (List Nat) :=
  if data.length < 2 then none
  else
    some (natToBytesBE 2
      (((words16 (data.take (data.length - 2 - (data.length - 2) % 2))).sum +
        (if (data.length - 2) % 2 = 1 then data.getD (data.length - 2 - 1) 0 * 256
         else 0)) % 65536))

/-- The checksum value as the spec phrases it (refinement target for C2,
written from the spec's words, not from the code): sum of the big-endian
16-bit words formed from all bytes except the final two, an odd trailing
byte added shifted into the high byte of a final word. -/
def checksum_spec_sum (data : List Nat) : Nat :=
  (words16 (data.take (data.length - 2))).sum +
    (if (data.length - 2) % 2 = 1 then
      ((data.take (data.length - 2)).getLast?).getD 0 * 256
     else 0)

/-- ASCII hex digit test, as `bytes.fromhex` accepts: `0-9`, `a-f`, `A-F`. -/
def isHexChar (c : Char) : Bool :=
  c.isDigit || ('a' ≤ c && c ≤ 'f') || ('A' ≤ c && c ≤ 'F')

/-- Value of an ASCII hex digit. -/
def hexDigitVal (c : Char) : Nat :=
  if c.isDigit then c.toNat - 48
  else if 'a' ≤ c && c ≤ 'f' then c.toNat - 87
  else c.toNat - 55

/-- `bytes.fromhex` on the already-filtered character list: consumes hex
digit pairs; `none` is the raised `ValueError` on an odd digit count or a
non-hex character.  (Python's `fromhex` additionally skips ASCII spaces,
but the source filters all of those out before the call.) -/
def fromhex : List Char → Option (List Nat)
  | [] => some []
  | [_] => none
  | c1 :: c2 :: rest =>
      if isHexChar c1 && isHexChar c2 then
        (fromhex rest).map fun bs => (hexDigitVal c1 * 16 + hexDigitVal c2) :: bs
      else none

/-- `hexstr_to_bytes` from the source:
`bytes.fromhex(''.join(filter(str.isalnum, value)))`.  `Char.isAlphanum`
agrees with Python's `str.isalnum` on ASCII characters (digits and latin
letters); the claims are settled for ASCII inputs. -/
def hexstr_to_bytes (s : List Char) : Option (List Nat) :=
  fromhex (s.filter Char.isAlphanum)

/-- Upper-case hex digit of a value below 16. -/
def hexDigitUpper (n : Nat) : Char :=
  if n < 10 then Char.ofNat (48 + n) else Char.ofNat (55 + n)

/-- The format `02X` applied to a byte (`< 256`): exactly two uppercase hex
digits. -/
def byteToHex2 (b : Nat) : List Char :=
  [hexDigitUpper (b / 16), hexDigitUpper (b % 16)]

/-- `bytes_to_hexstr` from the source with the default arguments
`start=''` and `sep=' '`: the bytes rendered as two uppercase hex digits
each, joined by single spaces. -/
def bytes_to_hexstr (l : List Nat) : List Char :=
  List.intercalate [' '] (l.map byteToHex2)

/-! ### Basic lemmas about the byte/integer conversions -/

theorem bytes_to_int_foldl (l : List Nat) (acc : Nat) :
    l.foldl (fun a b => a * 256 + b) acc = acc * 256 ^ l.length + bytes_to_int l := by
  induction l generalizing acc with
  | nil => simp [bytes_to_int]
  | cons x xs ih =>
      simp only [List.foldl_cons, bytes_to_int, List.length_cons,
        Nat.zero_mul, Nat.zero_add]
      rw [ih (acc * 256 + x), ih x]
      ring

theorem bytes_to_int_cons (x : Nat) (xs : List Nat) :
    bytes_to_int (x :: xs) = x * 256 ^ xs.length + bytes_to_int xs := by
  simpa [bytes_to_int] using bytes_to_int_foldl xs x

theorem bytes_to_int_lt (l : List Nat) (h : ∀ b ∈ l, b < 256) :
    bytes_to_int l < 256 ^ l.length := by
  induction l with
  | nil => simp [bytes_to_int]
  | cons x xs ih =>
      rw [bytes_to_int_cons]
      have hx : x < 256 := h x (by simp)
      have hxs : bytes_to_int xs < 256 ^ xs.length := ih (fun b hb => h b (by simp [hb]))
      have : x * 256 ^ xs.length + bytes_to_int xs < (x + 1) * 256 ^ xs.length := by
        have := hxs
        nlinarith [pow_pos (show 0 < 256 by norm_num) xs.length]
      calc x * 256 ^ xs.length + bytes_to_int xs
          < (x + 1) * 256 ^ xs.length := this
        _ ≤ 256 * 256 ^ xs.length := by
            exact Nat.mul_le_mul_right _ (by omega)
        _ = 256 ^ (x :: xs).length := by
            simp [List.length_cons, pow_succ]; ring

theorem natToBytesBE_length (n v : Nat) : (natToBytesBE n v).length = n := by
  induction n generalizing v with
  | zero => simp [natToBytesBE]
  | succ n ih => simp [natToBytesBE, ih]

theorem natToBytesBE_lt (n v : Nat) : ∀ b ∈ natToBytesBE n v, b < 256 := by
  induction n generalizing v with
  | zero => simp [natToBytesBE]
  | succ n ih =>
      intro b hb
      simp only [natToBytesBE, List.mem_cons] at hb
      rcases hb with h | h
      · subst h; exact Nat.mod_lt _ (by norm_num)
      · exact ih _ b h

theorem bytes_to_int_natToBytesBE (n v : Nat) (h : v < 256 ^ n) :
    bytes_to_int (natToBytesBE n v) = v := by
  induction n generalizing v with
  | zero =>
      simp only [pow_zero, Nat.lt_one_iff] at h
      simp [natToBytesBE, bytes_to_int, h]
  | succ n ih =>
      have hmod : v % 256 ^ n < 256 ^ n := Nat.mod_lt _ (pow_pos (by norm_num) n)
      have hdiv : v / 256 ^ n < 256 := by
        have : v < 256 ^ n * 256 := by
          have : (256 : Nat) ^ (n + 1) = 256 ^ n * 256 := pow_succ 256 n
          omega
        exact Nat.div_lt_of_lt_mul this
      rw [natToBytesBE, bytes_to_int_cons, natToBytesBE_length,
        Nat.mod_eq_of_lt hdiv, ih _ hmod, Nat.div_add_mod']

theorem natToBytesBE_bytes_to_int (l : List Nat) (h : ∀ b ∈ l, b < 256) :
    natToBytesBE l.length (bytes_to_int l) = l := by
  induction l with
  | nil => simp [natToBytesBE]
  | cons x xs ih =>
      have hx : x < 256 := h x (by simp)
      have hxs : bytes_to_int xs < 256 ^ xs.length :=
        bytes_to_int_lt xs (fun b hb => h b (by simp [hb]))
      have hpos : 0 < 256 ^ xs.length := pow_pos (by norm_num) _
      have hdiv : bytes_to_int (x :: xs) / 256 ^ xs.length = x := by
        rw [bytes_to_int_cons, add_comm, Nat.add_mul_div_right _ _ hpos,
          Nat.div_eq_of_lt hxs, Nat.zero_add]
      have hmod : bytes_to_int (x :: xs) % 256 ^ xs.length = bytes_to_int xs := by
        rw [bytes_to_int_cons, add_comm, Nat.add_mul_mod_self_right,
          Nat.mod_eq_of_lt hxs]
      rw [List.length_cons, natToBytesBE, hdiv, hmod, Nat.mod_eq_of_lt hx,
        ih (fun b hb => h b (by simp [hb]))]

theorem pow256_eq (n : Nat) : (256 : Nat) ^ n = 2 ^ (8 * n) := by
  rw [show (256 : Nat) = 2 ^ 8 from rfl, ← pow_mul]

theorem int_to_bytes_nat (v len : Nat) (h : v < 2 ^ (8 * len)) :
    int_to_bytes (v : Int) len false = some (natToBytesBE len v) := by
  have hfits : toBytesFits (v : Int) len false := by
    unfold toBytesFits
    simp only [Bool.false_eq_true, if_false]
    exact ⟨Int.natCast_nonneg v, by exact_mod_cast h⟩
  unfold int_to_bytes
  rw [if_pos hfits]
  have hmod : ((v : Int) % (2 ^ (8 * len) : Int)) = (v : Int) := by
    apply Int.emod_eq_of_lt (Int.natCast_nonneg v)
    exact_mod_cast h
  rw [hmod, Int.toNat_natCast]

theorem bitLenAux_zero (fuel : Nat) : bitLenAux fuel 0 = 0 := by
  cases fuel <;> simp [bitLenAux]

theorem bitLenAux_spec : ∀ fuel n, n ≤ fuel → n ≠ 0 →
    1 ≤ bitLenAux fuel n ∧ 2 ^ (bitLenAux fuel n - 1) ≤ n ∧
      n < 2 ^ bitLenAux fuel n := by
  intro fuel
  induction fuel with
  | zero => intro n h hn; omega
  | succ fuel ih =>
      intro n h hn
      rw [bitLenAux, if_neg hn]
      by_cases h1 : n / 2 = 0
      · have hn1 : n = 1 := by omega
        subst hn1
        simp [h1, bitLenAux_zero]
      · obtain ⟨hk1, hk2, hk3⟩ := ih (n / 2) (by omega) h1
        obtain ⟨m, hm⟩ : ∃ m, bitLenAux fuel (n / 2) = m + 1 :=
          ⟨bitLenAux fuel (n / 2) - 1, by omega⟩
        rw [hm] at hk2 hk3 ⊢
        refine ⟨by omega, ?_, ?_⟩
        · have h2 : (2 : Nat) ^ (m + 1 + 1 - 1) = 2 ^ m * 2 := by
            rw [Nat.add_sub_cancel, pow_succ]
          rw [h2]
          simp only [Nat.add_sub_cancel] at hk2
          omega
        · have h2 : (2 : Nat) ^ (m + 1 + 1) = 2 ^ (m + 1) * 2 := pow_succ 2 (m + 1)
          rw [h2]
          omega

theorem bit_length_spec {n : Nat} (hn : n ≠ 0) :
    1 ≤ bit_length n ∧ 2 ^ (bit_length n - 1) ≤ n ∧ n < 2 ^ bit_length n :=
  bitLenAux_spec n n le_rfl hn

theorem bit_length_le_iff {n m : Nat} : bit_length n ≤ m ↔ n < 2 ^ m := by
  by_cases hn : n = 0
  · subst hn
    simp only [bit_length, bitLenAux]
    exact ⟨fun _ => pow_pos (by norm_num) m, fun _ => Nat.zero_le m⟩
  · obtain ⟨h1, h2, h3⟩ := bit_length_spec hn
    constructor
    · intro h
      exact lt_of_lt_of_le h3 (Nat.pow_le_pow_right (by norm_num) h)
    · intro h
      by_contra hc
      push_neg at hc
      have : 2 ^ m ≤ 2 ^ (bit_length n - 1) :=
        Nat.pow_le_pow_right (by norm_num) (by omega)
      omega

/-! ### BER codec lemmas -/

theorem ber_encode_lt128 {v : Nat} (h : v < 128) : ber_encode v = some [v] := by
  unfold ber_encode
  rw [if_pos h, int_to_bytes_nat v 1 (by omega)]
  simp [natToBytesBE, Nat.mod_eq_of_lt (show v < 256 by omega)]

theorem ber_encode_ge128 {v : Nat} (h128 : 128 ≤ v) (hbl : bit_length v ≤ 1016) :
    ber_encode v =
      some (((bit_length v - 1) / 8 + 1 + 128) ::
        natToBytesBE ((bit_length v - 1) / 8 + 1) v) := by
  have hv0 : v ≠ 0 := by omega
  obtain ⟨hb1, hb2, hb3⟩ := bit_length_spec hv0
  have hB8 : bit_length v ≤ 8 * ((bit_length v - 1) / 8 + 1) := by omega
  have hvlt : v < 2 ^ (8 * ((bit_length v - 1) / 8 + 1)) :=
    lt_of_lt_of_le hb3 (Nat.pow_le_pow_right (by norm_num) hB8)
  have hcast : ((((bit_length v - 1) / 8 + 1 : Nat) : Int) + 128)
      = (((bit_length v - 1) / 8 + 1 + 128 : Nat) : Int) := by push_cast; ring
  have hmarker :
      int_to_bytes ((((bit_length v - 1) / 8 + 1 : Nat) : Int) + 128) 1 false
        = some [(bit_length v - 1) / 8 + 1 + 128] := by
    rw [hcast, int_to_bytes_nat _ 1 (by omega)]
    simp [natToBytesBE,
      Nat.mod_eq_of_lt (show (bit_length v - 1) / 8 + 1 + 128 < 256 by omega)]
  unfold ber_encode
  rw [if_neg (show ¬ v < 128 by omega), hmarker, int_to_bytes_nat _ _ hvlt]
  rfl

theorem ber_decode_single {v : Nat} (h : v < 128) : ber_decode [v] = some v := by
  have hb : bytes_to_int [v] = v := by simp [bytes_to_int]
  unfold ber_decode
  rw [hb, if_pos h]
  simp

theorem ber_decode_long {B v : Nat} (hB : B + 128 < 256) (hv : v < 256 ^ B) :
    ber_decode ((B + 128) :: natToBytesBE B v) = some v := by
  have hpos : 0 < 256 ^ (natToBytesBE B v).length := pow_pos (by norm_num) _
  have hge : ¬ bytes_to_int ((B + 128) :: natToBytesBE B v) < 128 := by
    rw [bytes_to_int_cons]
    have h1 : B + 128 ≤ (B + 128) * 256 ^ (natToBytesBE B v).length :=
      Nat.le_mul_of_pos_right _ hpos
    omega
  unfold ber_decode
  rw [if_neg hge]
  show (if ((B + 128) :: natToBytesBE B v).length = B + 128 - 127 then
      some (bytes_to_int (natToBytesBE B v)) else none) = some v
  rw [if_pos (by simp only [List.length_cons, natToBytesBE_length]; omega),
    bytes_to_int_natToBytesBE B v hv]

theorem bytes_to_int_ge_head (b : Nat) (rest : List Nat) :
    b ≤ bytes_to_int (b :: rest) := by
  rw [bytes_to_int_cons]
  have h1 : b ≤ b * 256 ^ rest.length :=
    Nat.le_mul_of_pos_right _ (pow_pos (by norm_num) _)
  omega

/-! ### C1: BER round trip and minimality -/

/-- C1 counterexample: the claim quantifies over every non-negative
integer, but for `v = 2 ^ 1016` the long-form byte count is 128, the
marker byte `128 + 128 = 256` overflows a single byte, and `ber_encode`
raises (`OverflowError`) instead of producing an encoding that decodes
back to `v`. -/
theorem C1_counterexample : ber_encode (2 ^ 1016) = none := by
  have h1 : bit_length (2 ^ 1016) = 1017 := by
    have ha : bit_length (2 ^ 1016) ≤ 1017 :=
      bit_length_le_iff.2 (Nat.pow_lt_pow_right (by norm_num) (by norm_num))
    have hb : ¬ bit_length (2 ^ 1016) ≤ 1016 := fun hc =>
      absurd (bit_length_le_iff.1 hc) (lt_irrefl _)
    omega
  have h128 : ¬ (2 : Nat) ^ 1016 < 128 := by
    have : (2 : Nat) ^ 7 ≤ 2 ^ 1016 := Nat.pow_le_pow_right (by norm_num) (by norm_num)
    norm_num at this
    omega
  unfold ber_encode
  rw [if_neg h128, h1]
  norm_num [int_to_bytes, toBytesFits]

/-- C1 (amended): for every `v < 2 ^ 1016` (so that the long-form byte
count fits the single marker byte), `ber_decode (ber_encode v) = v`, and
the encoding is minimal: a single byte `[v]` when `v < 128`, otherwise
`1 + ⌈bit_length v / 8⌉` bytes whose long-form payload has no leading zero
byte.  For `v ≥ 2 ^ 1016` the encoder raises (see the counterexample). -/
theorem C1_ber_round_trip_minimal (v : Nat) (hv : v < 2 ^ 1016) :
    ∃ e, ber_encode v = some e ∧ ber_decode e = some v ∧
      (v < 128 → e = [v]) ∧
      (128 ≤ v → e.length = 1 + (bit_length v + 7) / 8 ∧ e.tail.head? ≠ some 0) := by
  by_cases h : v < 128
  · exact ⟨[v], ber_encode_lt128 h, ber_decode_single h, fun _ => rfl,
      fun hc => absurd hc (by omega)⟩
  · have h128 : 128 ≤ v := by omega
    have hv0 : v ≠ 0 := by omega
    obtain ⟨hb1, hb2, hb3⟩ := bit_length_spec hv0
    have hbl : bit_length v ≤ 1016 := bit_length_le_iff.2 hv
    have hbl8 : 8 ≤ bit_length v := by
      by_contra hc
      push_neg at hc
      have h7 : v < 2 ^ 7 := bit_length_le_iff.1 (show bit_length v ≤ 7 by omega)
      norm_num at h7
      omega
    have hBbound : (bit_length v - 1) / 8 + 1 + 128 < 256 := by omega
    have hB8 : bit_length v ≤ 8 * ((bit_length v - 1) / 8 + 1) := by omega
    have hvlt : v < 256 ^ ((bit_length v - 1) / 8 + 1) := by
      rw [pow256_eq]
      exact lt_of_lt_of_le hb3 (Nat.pow_le_pow_right (by norm_num) hB8)
    refine ⟨((bit_length v - 1) / 8 + 1 + 128) ::
        natToBytesBE ((bit_length v - 1) / 8 + 1) v,
      ber_encode_ge128 h128 hbl, ber_decode_long hBbound hvlt,
      fun hc => absurd hc (by omega), fun _ => ⟨?_, ?_⟩⟩
    · simp only [List.length_cons, natToBytesBE_length]
      omega
    · obtain ⟨n, hn⟩ : ∃ n, (bit_length v - 1) / 8 + 1 = n + 1 :=
        ⟨(bit_length v - 1) / 8, rfl⟩
      have h8n : 8 * n ≤ bit_length v - 1 := by omega
      have hlow : 256 ^ n ≤ v := by
        rw [pow256_eq]
        exact le_trans (Nat.pow_le_pow_right (by norm_num) h8n) hb2
      have hup : v / 256 ^ n < 256 := by
        apply Nat.div_lt_of_lt_mul
        have hps : (256 : Nat) ^ (n + 1) = 256 ^ n * 256 := pow_succ _ _
        rw [hn] at hvlt
        omega
      have hdivpos : 1 ≤ v / 256 ^ n :=
        (Nat.one_le_div_iff (pow_pos (by norm_num) n)).2 hlow
      rw [hn]
      simp only [List.tail_cons, natToBytesBE, List.head?_cons,
        ne_eq, Option.some.injEq]
      rw [Nat.mod_eq_of_lt hup]
      omega

/-- C1 witness at `v = 300`. -/
theorem C1_witness :
    ∃ e, ber_encode 300 = some e ∧ ber_decode e = some 300 ∧
      ((300 : Nat) < 128 → e = [300]) ∧
      (128 ≤ (300 : Nat) → e.length = 1 + (bit_length 300 + 7) / 8 ∧
        e.tail.head? ≠ some 0) :=
  C1_ber_round_trip_minimal 300 (by norm_num)

/-! ### C5: ber_decode failure conditions -/

/-- C5 counterexample: the claim requires every buffer with first byte
`< 128` that is not exactly one byte long — "including the empty buffer" —
to fail, but the code computes `bytes_to_int(b'') = 0 < 128`, the length
check only rejects lengths `> 1`, and the empty buffer decodes to `0`. -/
theorem C5_counterexample : ber_decode [] = some 0 := by decide

/-- C5 (amended): for every *nonempty* buffer, `ber_decode` fails exactly
when the buffer is ill-formed: with first byte `< 128` the buffer must be
exactly one byte long, with first byte `≥ 128` the length must equal
`1 + (first_byte - 128)`.  The empty buffer, contrary to the claim,
does not fail: it decodes to `0` (see the counterexample). -/
theorem C5_ber_decode_failure_iff (b : Nat) (rest : List Nat) :
    ber_decode (b :: rest) = none ↔
      ¬ ((b < 128 ∧ rest = []) ∨
         (128 ≤ b ∧ (b :: rest).length = 1 + (b - 128))) := by
  have hhead := bytes_to_int_ge_head b rest
  unfold ber_decode
  by_cases hv : bytes_to_int (b :: rest) < 128
  · have hb : b < 128 := by omega
    rw [if_pos hv]
    by_cases hr : rest = []
    · subst hr
      apply iff_of_false
      · simp
      · exact not_not_intro (Or.inl ⟨hb, rfl⟩)
    · have hlen : 0 < rest.length := List.length_pos.2 hr
      apply iff_of_true
      · rw [if_pos (by simp only [List.length_cons]; omega)]
      · rintro (⟨-, hc⟩ | ⟨hc, -⟩)
        · exact hr hc
        · omega
  · rw [if_neg hv]
    show (if (b :: rest).length = b - 127 then some (bytes_to_int rest)
        else none) = none ↔ _
    by_cases hb : 128 ≤ b
    · by_cases hl : (b :: rest).length = b - 127
      · rw [if_pos hl]
        apply iff_of_false
        · simp
        · exact not_not_intro (Or.inr ⟨hb, by omega⟩)
      · rw [if_neg hl]
        apply iff_of_true rfl
        rintro (⟨hc, -⟩ | ⟨-, hc⟩)
        · omega
        · exact hl (by omega)
    · have hl : (b :: rest).length ≠ b - 127 := by
        have : 0 < (b :: rest).length := by simp
        omega
      rw [if_neg hl]
      apply iff_of_true rfl
      rintro (⟨-, hc⟩ | ⟨hc, -⟩)
      · subst hc
        have : bytes_to_int [b] = b := by simp [bytes_to_int]
        omega
      · omega

/-! ### Checksum lemmas -/

theorem words16_append_single : ∀ (l : List Nat) (a : Nat), l.length % 2 = 0 →
    words16 (l ++ [a]) = words16 l
  | [], _, _ => rfl
  | [x], _, h => by simp at h
  | x :: y :: rest, a, h => by
      simp only [List.cons_append, words16, List.append_eq]
      rw [words16_append_single rest a
        (by simp only [List.length_cons] at h ⊢; omega)]

theorem take_pred_words16 (data : List Nat) (n : Nat) (hn : n ≤ data.length)
    (hodd : n % 2 = 1) :
    words16 (data.take (n - 1)) = words16 (data.take n) := by
  have hlenP : (data.take n).length = n := List.length_take_of_le hn
  have hPne : data.take n ≠ [] := by
    intro hc
    rw [hc] at hlenP
    simp only [List.length_nil] at hlenP
    omega
  have h1 : (data.take n).dropLast = data.take (n - 1) := by
    rw [List.dropLast_eq_take, hlenP, List.take_take, min_eq_left (by omega)]
  have h2 : (data.take n).dropLast ++ [(data.take n).getLast hPne] = data.take n :=
    List.dropLast_append_getLast hPne
  calc words16 (data.take (n - 1))
      = words16 ((data.take n).dropLast) := by rw [h1]
    _ = words16 ((data.take n).dropLast ++ [(data.take n).getLast hPne]) :=
        (words16_append_single _ _
          (by rw [List.length_dropLast, hlenP]; omega)).symm
    _ = words16 (data.take n) := by rw [h2]

theorem take_getLast_getD (data : List Nat) (n : Nat) (hn : n ≤ data.length)
    (h1 : 1 ≤ n) :
    ((data.take n).getLast?).getD 0 = data.getD (n - 1) 0 := by
  rw [List.getLast?_eq_getElem?, List.length_take_of_le hn,
    List.getD_eq_getElem?_getD, List.getElem?_take, if_pos (by omega)]

/-- Shared characterization: for buffers of length at least 2 the code's
checksum agrees with the spec-phrased sum, serialized into two big-endian
bytes. -/
theorem packet_checksum_eq_spec (data : List Nat) (h2 : 2 ≤ data.length) :
    packet_checksum data = some (natToBytesBE 2 (checksum_spec_sum data % 65536)) := by
  unfold packet_checksum checksum_spec_sum
  rw [if_neg (show ¬ data.length < 2 by omega)]
  by_cases hm : (data.length - 2) % 2 = 1
  · rw [if_pos hm, if_pos hm,
      show data.length - 2 - (data.length - 2) % 2 = data.length - 2 - 1 by omega,
      take_pred_words16 data (data.length - 2) (by omega) hm,
      take_getLast_getD data (data.length - 2) (by omega) (by omega)]
  · rw [if_neg hm, if_neg hm,
      show data.length - 2 - (data.length - 2) % 2 = data.length - 2 by omega]

/-! ### C2: packet checksum functional correctness -/

/-- C2: for every buffer of length at least 2, `packet_checksum` succeeds
(even or odd payload length alike) and returns the sum modulo `2^16` of
the big-endian 16-bit words of all bytes but the final two — an odd
trailing byte added shifted into the high byte — serialized as 2 big-endian
bytes; concretely, payload `[0x00, 0x01, 0x00, 0x02]` plus two placeholder
bytes yields `[0x00, 0x03]`. -/
theorem C2_packet_checksum (data : List Nat) (h2 : 2 ≤ data.length) :
    packet_checksum data = some (natToBytesBE 2 (checksum_spec_sum data % 65536)) ∧
      packet_checksum [0, 1, 0, 2, 171, 205] = some [0, 3] :=
  ⟨packet_checksum_eq_spec data h2, by decide⟩

/-- C2 witness at an odd-length buffer. -/
theorem C2_witness :
    packet_checksum [0, 1, 0, 2, 9, 171, 205]
        = some (natToBytesBE 2 (checksum_spec_sum [0, 1, 0, 2, 9, 171, 205] % 65536)) ∧
      packet_checksum [0, 1, 0, 2, 171, 205] = some [0, 3] :=
  C2_packet_checksum [0, 1, 0, 2, 9, 171, 205] (by decide)

/-! ### C10: the checksum ignores the trailing two bytes -/

/-- C10: two equal-length buffers (length at least 2) that agree on all
bytes except possibly the final two produce the same checksum. -/
theorem C10_checksum_ignores_trailer (d1 d2 : List Nat)
    (hlen : d1.length = d2.length) (h2 : 2 ≤ d1.length)
    (hpre : d1.take (d1.length - 2) = d2.take (d2.length - 2)) :
    packet_checksum d1 = packet_checksum d2 := by
  rw [packet_checksum_eq_spec d1 h2, packet_checksum_eq_spec d2 (by omega)]
  unfold checksum_spec_sum
  rw [hpre, hlen]

/-- C10 witness: same first three bytes, different trailing two bytes. -/
theorem C10_witness :
    packet_checksum [1, 2, 3, 4, 5] = packet_checksum [1, 2, 3, 250, 251] :=
  C10_checksum_ignores_trailer [1, 2, 3, 4, 5] [1, 2, 3, 250, 251]
    (by decide) (by decide) (by decide)

/-! ### C4: degenerate domain behavior -/

/-- C4 counterexample: with the degenerate domain `(0, 0)` the code never
produces a `DegenerateDomain` failure: at `src_value = 0` it reaches the
slope computation and performs the unguarded division by zero
(`ZeroDivisionError`), and at `src_value = 1` the out-of-domain check fires
first and the `None` non-result is silently returned. -/
theorem C4_counterexample :
    linear_map 0 ((0 : ℚ), 0) (0, 1) = .zeroDiv ∧
      linear_map 1 ((0 : ℚ), 0) (0, 1) = .outOfDomain := by
  constructor
  · unfold linear_map
    rw [if_neg (by push_neg; exact ⟨le_rfl, le_rfl⟩), if_pos (by norm_num)]
  · unfold linear_map
    rw [if_pos (Or.inr (by norm_num))]

/-- C4 (amended): with a degenerate domain `src_min == src_max` there is no
`DegenerateDomain` condition in the code: when `src_value` equals the
boundary the unguarded slope division raises `ZeroDivisionError`, and for
every other `src_value` the out-of-domain check fires first and the
out-of-domain non-result is returned silently. -/
theorem C4_degenerate_domain (v smin dmin dmax : ℚ) :
    linear_map v (smin, smin) (dmin, dmax) =
      (if v = smin then .zeroDiv else .outOfDomain) := by
  unfold linear_map
  by_cases hv : v = smin
  · subst hv
    rw [if_neg (by push_neg; exact ⟨le_rfl, le_rfl⟩), if_pos (sub_self v),
      if_pos rfl]
  · rw [if_pos (lt_or_gt_of_ne hv), if_neg hv]

/-! ### C6: unsigned int/bytes round trip -/

/-- C6: for every byte buffer of length 1 through 9, serializing the
big-endian unsigned value back into the same number of bytes reproduces
the buffer: `int_to_bytes(bytes_to_int(b), length=len(b)) == b`. -/
theorem C6_int_bytes_round_trip (b : List Nat) (hb : ∀ x ∈ b, x < 256)
    (h1 : 1 ≤ b.length) (h9 : b.length ≤ 9) :
    int_to_bytes ((bytes_to_int b : Nat) : Int) b.length false = some b := by
  have hlt : bytes_to_int b < 2 ^ (8 * b.length) := by
    rw [← pow256_eq]
    exact bytes_to_int_lt b hb
  rw [int_to_bytes_nat _ _ hlt, natToBytesBE_bytes_to_int b hb]

/-- C6 witness at `[0, 171, 12]`. -/
theorem C6_witness :
    int_to_bytes ((bytes_to_int [0, 171, 12] : Nat) : Int) 3 false
      = some [0, 171, 12] := by
  have h := C6_int_bytes_round_trip [0, 171, 12] (by decide) (by decide) (by decide)
  simpa using h

/-! ### Helpers for the scaling codec -/

theorem int_to_bytes_length {v : Int} {len : Nat} {s : Bool} {bs : List Nat}
    (h : int_to_bytes v len s = some bs) : bs.length = len := by
  unfold int_to_bytes at h
  split at h
  · cases h
    exact natToBytesBE_length _ _
  · cases h

theorem pyRound_intCast (z : Int) : pyRound ((z : ℚ)) = z := by
  unfold pyRound
  simp only [Rat.num_intCast, Rat.den_intCast, Nat.cast_one, Int.fdiv_one,
    sub_self]
  rw [if_pos (by norm_num)]

/-! ### C8: float_to_bytes -/

/-- C8 counterexample: the claim asserts that every in-range value
serializes into exactly `⌈bit_length(domain_max)/8⌉` bytes, but with
domain `(-255, 255)` and range `(0, 100)` the value `100` maps to the
integer `255`, the computed width is one *signed* byte (the width formula
ignores the sign bit), and `to_bytes` raises `OverflowError` instead of
serializing. -/
theorem C8_counterexample :
    float_to_bytes 100 ((-255 : Int), 255) ((0 : ℚ), 100) = none := by
  have harg : (((255 : Int) : ℚ) - ((-255 : Int) : ℚ)) / (100 - 0) * (100 - 0)
      + ((-255 : Int) : ℚ) = ((255 : Int) : ℚ) := by push_cast; norm_num
  have hlm : linear_map 100 ((0 : ℚ), 100) (((-255 : Int) : ℚ), ((255 : Int) : ℚ))
      = .ok (((255 : Int) : ℚ)) := by
    unfold linear_map
    rw [if_neg (by push_neg; norm_num), if_neg (by norm_num)]
    rw [harg]
  simp only [float_to_bytes, hlm]
  rw [pyRound_intCast]
  decide

/-- C8 (amended): for every value inside a nondegenerate physical range,
`float_to_bytes` applies the linear map with the physical range as source
and the integer domain as destination, rounds the mapped value to the
nearest integer (ties to even), and hands it to the serializer with width
`⌈bit_length(domain_max)/8⌉` bytes and signedness `domain_min < 0`;
*provided* the rounded integer fits that width under that signedness (the
claim's unconditional form fails — see the counterexample), the result is
exactly those bytes, of exactly that length. -/
theorem C8_float_to_bytes (v rmin rmax : ℚ) (dmin dmax : Int) (bs : List Nat)
    (h1 : rmin ≤ v) (h2 : v ≤ rmax) (h3 : rmin < rmax)
    (hfit : int_to_bytes
        (pyRound (((dmax : ℚ) - (dmin : ℚ)) / (rmax - rmin) * (v - rmin) + (dmin : ℚ)))
        ((bit_length dmax.natAbs + 7) / 8) (decide (dmin < 0)) = some bs) :
    float_to_bytes v (dmin, dmax) (rmin, rmax) = some bs ∧
      bs.length = (bit_length dmax.natAbs + 7) / 8 := by
  have hlm : linear_map v (rmin, rmax) (((dmin : ℚ)), ((dmax : ℚ)))
      = .ok (((dmax : ℚ) - (dmin : ℚ)) / (rmax - rmin) * (v - rmin) + (dmin : ℚ)) := by
    unfold linear_map
    rw [if_neg (by push_neg; exact ⟨h1, h2⟩), if_neg (sub_ne_zero.2 h3.ne')]
  refine ⟨?_, int_to_bytes_length hfit⟩
  simp only [float_to_bytes, hlm]
  exact hfit

/-- C8 witness: domain `(0, 200)`, range `(0, 100)`, value `50` maps to
`100` and serializes unsigned into one byte. -/
theorem C8_witness :
    float_to_bytes 50 ((0 : Int), 200) ((0 : ℚ), 100) = some [100] ∧
      ([100] : List Nat).length = (bit_length (200 : Int).natAbs + 7) / 8 := by
  apply C8_float_to_bytes 50 0 100 0 200 [100] (by norm_num) (by norm_num) (by norm_num)
  have harg : (((200 : Int) : ℚ) - ((0 : Int) : ℚ)) / (100 - 0) * (50 - 0)
      + ((0 : Int) : ℚ) = ((100 : Int) : ℚ) := by push_cast; norm_num
  rw [harg, pyRound_intCast]
  decide

/-! ### C9: hex string conversion -/

theorem fromhex_eq_none_iff : ∀ cs : List Char,
    fromhex cs = none ↔
      (cs.length % 2 = 1 ∨ ∃ c ∈ cs, isHexChar c = false)
  | [] => by simp [fromhex]
  | [c] => by simp [fromhex]
  | c1 :: c2 :: rest => by
      simp only [fromhex]
      by_cases h : (isHexChar c1 && isHexChar c2) = true
      · rw [if_pos h, Option.map_eq_none', fromhex_eq_none_iff rest]
        simp only [Bool.and_eq_true] at h
        constructor
        · rintro (hodd | ⟨c, hc, hcf⟩)
          · left
            simp only [List.length_cons]
            omega
          · exact Or.inr ⟨c, by simp [hc], hcf⟩
        · rintro (hodd | ⟨c, hc, hcf⟩)
          · left
            simp only [List.length_cons] at hodd
            omega
          · simp only [List.mem_cons] at hc
            rcases hc with rfl | rfl | hc
            · exact absurd hcf (by simp [h.1])
            · exact absurd hcf (by simp [h.2])
            · exact Or.inr ⟨c, hc, hcf⟩
      · rw [if_neg h]
        simp only [Bool.and_eq_true, not_and_or, Bool.not_eq_true] at h
        apply iff_of_true rfl
        right
        rcases h with h | h
        · exact ⟨c1, by simp, h⟩
        · exact ⟨c2, by simp, h⟩

/-- C9: `hexstr_to_bytes` strips the non-alphanumeric formatting
characters and fails exactly when the remaining digit count is odd or a
remaining character is not a hex digit (stated for ASCII inputs, where the
embedded `Char.isAlphanum` agrees with Python's `str.isalnum`); and the
default-formatting round trip `bytes_to_hexstr (hexstr_to_bytes "AB CD-EF")
= "AB CD EF"` holds. -/
theorem C9_hexstr_failure_iff (s : List Char) (hascii : ∀ c ∈ s, c.toNat < 128) :
    (hexstr_to_bytes s = none ↔
      ((s.filter Char.isAlphanum).length % 2 = 1 ∨
        ∃ c ∈ s.filter Char.isAlphanum, isHexChar c = false)) ∧
      hexstr_to_bytes (("AB CD-EF").toList) = some [171, 205, 239] ∧
      bytes_to_hexstr [171, 205, 239] = ("AB CD EF").toList := by
  refine ⟨?_, by decide, by decide⟩
  unfold hexstr_to_bytes
  exact fromhex_eq_none_iff _

/-- C9 witness at the spec's example string. -/
theorem C9_witness :
    (hexstr_to_bytes (("AB CD-EF").toList) = none ↔
      (((("AB CD-EF").toList).filter Char.isAlphanum).length % 2 = 1 ∨
        ∃ c ∈ (("AB CD-EF").toList).filter Char.isAlphanum, isHexChar c = false)) ∧
      hexstr_to_bytes (("AB CD-EF").toList) = some [171, 205, 239] ∧
      bytes_to_hexstr [171, 205, 239] = ("AB CD EF").toList :=
  C9_hexstr_failure_iff (("AB CD-EF").toList) (by decide)
